import Mathlib

/-!
# Verification of `weighted_max_influence.cc`

A shallow embedding of the weighted CELF influence-maximization program
(`src/src/weighted_max_influence.cc`, the implementation with the explicit
`has_value` eligibility flag that the specification adopts).

Modelling conventions:
* C++ `double` is modelled as `ℚ`.
* `std::mt19937` together with `std::uniform_real_distribution<double>(0,1)`
  is modelled as an abstract deterministic stream of rational draws plus a
  position index; each `dist(rng)` consumes the next element of the stream.
* `std::set<int>` is modelled by the list of elements in insertion order;
  iteration over the set (as in `std::vector<int> temp_seeds(seeds.begin(),
  seeds.end())` and the final `for (int s : seeds)` print loop) is modelled
  by sorting that list ascending, which is exactly the iteration order of
  `std::set<int>`.
* `std::priority_queue<NodeGain>` is modelled by a list together with a
  pop-max operation that removes a maximal element with respect to
  `NodeGain::operator<`.
* The nondeterministically seeded RNGs (`std::random_device` mixed with the
  wall clock) are modelled by universally quantified families of streams:
  one stream per Phase-1 candidate node and one per Phase-2 re-evaluation.
* The unbounded BFS `while` loop of the simulator and the CELF inner
  `while` loop are modelled with explicit fuel; the fuel supplied by the
  wrappers dominates the number of iterations the C++ loops can perform
  (each BFS dequeue consumes an enqueue, and each enqueue marks a node or
  consumes a seed-list entry; each CELF inner iteration pops an entry).
-/

/-- `struct Edge { int to; double probability; }`. -/
structure Edge where
  «to» : ℕ
  probability : ℚ
  deriving Repr, DecidableEq

/-- The `Graph` class: string-keyed id map, reverse map, adjacency lists,
per-node values and the `has_value` eligibility flags. -/
structure Graph where
  id_map : List (String × ℕ)
  reverse_id_map : List String
  adj : List (List Edge)
  node_values : List ℚ
  has_value : List Bool
  deriving Repr

/-- The empty graph (`Graph g;`). -/
def Graph.empty : Graph := ⟨[], [], [], [], []⟩

/-- `Graph::num_nodes`. -/
def Graph.num_nodes (g : Graph) : ℕ := g.reverse_id_map.length

/-- Association-list lookup modelling `id_map.find(gexf_id)`. -/
def Graph.findId (g : Graph) (gexf_id : String) : Option ℕ :=
  (g.id_map.find? (fun p => p.1 = gexf_id)).map Prod.snd

/-- `Graph::get_internal_id`: interning returns the existing id, or assigns
the next sequential id, extending `reverse_id_map`, `adj`, `node_values`
(default `0.0`) and `has_value` (default `0`). -/
def Graph.get_internal_id (g : Graph) (gexf_id : String) : ℕ × Graph :=
  match g.findId gexf_id with
  | some i => (i, g)
  | none =>
    let new_id := g.reverse_id_map.length
    (new_id,
      { g with
        id_map := g.id_map ++ [(gexf_id, new_id)]
        reverse_id_map := g.reverse_id_map ++ [gexf_id]
        adj := g.adj ++ [[]]
        node_values := g.node_values ++ [0]
        has_value := g.has_value ++ [false] })

/-- `Graph::add_edge`: interns both endpoints and appends the edge with the
probability exactly as supplied (the source performs no clamping). -/
def Graph.add_edge (g : Graph) (src target : String) (prob : ℚ) : Graph :=
  let (u, g1) := g.get_internal_id src
  let (v, g2) := g1.get_internal_id target
  { g2 with adj := g2.adj.set u ((g2.adj.getD u []) ++ [⟨v, prob⟩]) }

/-- `Graph::set_node_value`: interns, records the value and sets the
eligibility flag. -/
def Graph.set_node_value (g : Graph) (gexf_id : String) (val : ℚ) : Graph :=
  let (u, g1) := g.get_internal_id gexf_id
  { g1 with
    node_values := g1.node_values.set u val
    has_value := g1.has_value.set u true }

/-- Value of node `v` (`g.node_values[v]`, defaulting out of range to 0,
which only arises for inputs the C++ code would index out of bounds on). -/
def Graph.value (g : Graph) (v : ℕ) : ℚ := g.node_values.getD v 0

/-- Outgoing edges of `u` (`g.adj[u]`). -/
def Graph.edges (g : Graph) (u : ℕ) : List Edge := g.adj.getD u []

/-- Eligibility flag of `i` (`g.has_value[i]`). -/
def Graph.eligible (g : Graph) (i : ℕ) : Bool := g.has_value.getD i false

/-- Model of `std::mt19937` plus `uniform_real_distribution<double>(0,1)`:
the draws the generator will produce, as a function of the draw index,
together with the current position.  A fixed `stream` with `idx = 0` is the
initial state; drawing advances `idx`. -/
structure Mt19937 where
  stream : ℕ → ℚ
  idx : ℕ

/-- One draw `dist(rng)`: yields the next value and the advanced state. -/
def Mt19937.next (r : Mt19937) : ℚ × Mt19937 :=
  (r.stream r.idx, ⟨r.stream, r.idx + 1⟩)

/-- State of the cascade BFS (`run_weighted_simulation_token`): the FIFO
queue `q`, the epoch-token vector `last_seen`, the accumulated
`total_value`, and the RNG. -/
structure SimState where
  q : List ℕ
  last_seen : List ℕ
  total : ℚ
  rng : Mt19937

/-- One step of the seed-initialization loop: an unmarked seed is marked,
enqueued, and contributes its value. -/
def seedStep (g : Graph) (token : ℕ) (st : SimState) (s : ℕ) : SimState :=
  if st.last_seen.getD s 0 ≠ token then
    { st with
      last_seen := st.last_seen.set s token
      q := st.q ++ [s]
      total := st.total + g.value s }
  else st

/-- Processing one outgoing edge of a dequeued node: if the target is not
yet activated this rollout, draw `r`; activation happens when
`r ≤ edge.probability`. -/
def procEdge (g : Graph) (token : ℕ) (st : SimState) (e : Edge) : SimState :=
  if st.last_seen.getD e.to 0 ≠ token then
    let (r, rng') := st.rng.next
    if r ≤ e.probability then
      { q := st.q ++ [e.to]
        last_seen := st.last_seen.set e.to token
        total := st.total + g.value e.to
        rng := rng' }
    else { st with rng := rng' }
  else st

/-- The BFS `while (!q.empty())` loop, with fuel.  Each iteration dequeues
one node and processes its adjacency list in order. -/
def simLoop (g : Graph) (token : ℕ) : ℕ → SimState → SimState
  | 0, st => st
  | fuel + 1, st =>
    match st.q with
    | [] => st
    | u :: qrest =>
      simLoop g token fuel ((g.edges u).foldl (procEdge g token) { st with q := qrest })

/-- `run_weighted_simulation_token`: one stochastic rollout.  The supplied
fuel dominates the possible number of dequeues: every enqueue either
consumes a seed-list entry or freshly marks a node of the graph. -/
def run_weighted_simulation_token (g : Graph) (seed_list : List ℕ) (rng : Mt19937)
    (last_seen : List ℕ) (token : ℕ) : SimState :=
  let st0 := seed_list.foldl (seedStep g token) ⟨[], last_seen, 0, rng⟩
  simLoop g token (seed_list.length + g.num_nodes) st0

/-- The round loop of `estimate_weighted_spread`: pre-increment the 32-bit
token (resetting `last_seen` on wrap-around to 0), run one rollout, and
accumulate its total. -/
def estimateRounds (g : Graph) (seed_list : List ℕ) :
    ℕ → ℕ → List ℕ → Mt19937 → ℚ → ℚ × List ℕ × ℕ × Mt19937
  | 0, token, last_seen, rng, acc => (acc, last_seen, token, rng)
  | i + 1, token, last_seen, rng, acc =>
    let t := (token + 1) % 4294967296
    let token' := if t = 0 then 1 else t
    let ls := if t = 0 then List.replicate last_seen.length 0 else last_seen
    let st := run_weighted_simulation_token g seed_list rng ls token'
    estimateRounds g seed_list i token' st.last_seen st.rng (acc + st.total)

/-- `estimate_weighted_spread`: the arithmetic mean of `mc_rounds` rollout
totals, drawing successive values from `rng`; `last_seen` starts all-zero
and the token starts at 1 (so the first rollout uses token 2). -/
def estimate_weighted_spread (g : Graph) (seed_list : List ℕ) (mc_rounds : ℕ)
    (rng : Mt19937) : ℚ :=
  (estimateRounds g seed_list mc_rounds 1 (List.replicate g.num_nodes 0) rng 0).1 /
    (mc_rounds : ℚ)

/-- `struct NodeGain`. -/
structure NodeGain where
  node_id : ℕ
  marginal_gain : ℚ
  iteration_computed : ℕ
  deriving Repr, DecidableEq

/-- `NodeGain::operator<`: on equal gains the entry with the larger
`node_id` compares smaller (so the smaller id wins in a max-heap);
otherwise compare by gain. -/
def NodeGain.lt (a b : NodeGain) : Bool :=
  if a.marginal_gain = b.marginal_gain then decide (b.node_id < a.node_id)
  else decide (a.marginal_gain < b.marginal_gain)

/-- `pq.top()`: a maximal element with respect to `NodeGain.lt` (the first
such element in the list, which is the unique maximum whenever no two
entries are equivalent under the ordering). -/
def pqTop : List NodeGain → Option NodeGain
  | [] => none
  | x :: xs => some (xs.foldl (fun m y => if NodeGain.lt m y then y else m) x)

/-- `pq.top(); pq.pop()`: returns the popped maximal entry and the
remaining heap contents. -/
def pqPop (l : List NodeGain) : Option (NodeGain × List NodeGain) :=
  match pqTop l with
  | none => none
  | some m => some (m, l.erase m)

/-- One `Selected Node …` stdout record: the node, its committed marginal
gain, and the updated total weighted reach. -/
structure SelLine where
  node_id : ℕ
  gain : ℚ
  total_reach : ℚ
  deriving Repr, DecidableEq

/-- State of Phase 2: the seed set in insertion order (the `std::set`
contains exactly these elements), `current_val`, the heap, the index of
the next nondeterministically seeded Phase-2 RNG, and the selection log. -/
structure CelfState where
  seedsSel : List ℕ
  current_val : ℚ
  pq : List NodeGain
  callIdx : ℕ
  log : List SelLine

/-- Ascending sort; models iterating a `std::set<int>` in its order. -/
def sortAsc (l : List ℕ) : List ℕ := l.insertionSort (· ≤ ·)

/-- Outcome of the inner `while (!found_best && !pq.empty())` loop. -/
inductive InnerResult where
  | committed (st : CelfState)
  | exhausted (st : CelfState)
  | fuelOut (st : CelfState)

/-- The stale branch: rebuild `temp_seeds` by iterating the seed set in
ascending order and appending the popped node, re-estimate with a fresh
Phase-2 RNG, and push the recomputed entry stamped with the current seed
count. -/
def recomputeState (g : Graph) (mc : ℕ) (rsup : ℕ → Mt19937) (st : CelfState)
    (top : NodeGain) (rest : List NodeGain) : CelfState :=
  let temp_seeds := sortAsc st.seedsSel ++ [top.node_id]
  let new_val := estimate_weighted_spread g temp_seeds mc (rsup st.callIdx)
  { st with
    pq := ⟨top.node_id, new_val - st.current_val, st.seedsSel.length⟩ :: rest
    callIdx := st.callIdx + 1 }

/-- The fresh branch: insert the node, add its gain to `current_val`, and
emit the selection record. -/
def commitState (st : CelfState) (top : NodeGain) (rest : List NodeGain) : CelfState :=
  { st with
    seedsSel := st.seedsSel ++ [top.node_id]
    current_val := st.current_val + top.marginal_gain
    pq := rest
    log := st.log ++ [⟨top.node_id, top.marginal_gain, st.current_val + top.marginal_gain⟩] }

/-- The inner Phase-2 loop, with fuel: pop; discard members of the seed
set; commit fresh entries; recompute and repush stale ones. -/
def innerLoop (g : Graph) (mc : ℕ) (rsup : ℕ → Mt19937) : ℕ → CelfState → InnerResult
  | 0, st => .fuelOut st
  | fuel + 1, st =>
    match pqPop st.pq with
    | none => .exhausted st
    | some (top, rest) =>
      if top.node_id ∈ st.seedsSel then
        innerLoop g mc rsup fuel { st with pq := rest }
      else if top.iteration_computed = st.seedsSel.length then
        .committed (commitState st top rest)
      else
        innerLoop g mc rsup fuel (recomputeState g mc rsup st top rest)

/-- Result of the CELF driver: the seed set in selection order, the final
`current_val`, the selection log, and — when the heap was exhausted before
`k` selections — the achieved seed count named by the stderr warning.
`fuelOk` is a modelling artifact recording that no inner loop ran out of
fuel (it never does; the supplied fuel exceeds the heap size). -/
structure CelfResult where
  seedsSel : List ℕ
  current_val : ℚ
  log : List SelLine
  warning : Option ℕ
  fuelOk : Bool

/-- The outer `for (iteration = 0; iteration < k; ++iteration)` loop. -/
def celfLoop (g : Graph) (mc : ℕ) (rsup : ℕ → Mt19937) : ℕ → CelfState → CelfResult
  | 0, st => ⟨st.seedsSel, st.current_val, st.log, none, true⟩
  | it + 1, st =>
    match innerLoop g mc rsup (st.pq.length + 1) st with
    | .committed st' => celfLoop g mc rsup it st'
    | .exhausted st' => ⟨st'.seedsSel, st'.current_val, st'.log, some st'.seedsSel.length, true⟩
    | .fuelOut st' => ⟨st'.seedsSel, st'.current_val, st'.log, none, false⟩

/-- Phase 1: every node with the `has_value` flag — and only those — is
estimated once (with some independently seeded RNG, here indexed by the
node) and enters the heap stamped with iteration 0. -/
def phase1 (g : Graph) (mc : ℕ) (rsup1 : ℕ → Mt19937) : List NodeGain :=
  ((List.range g.num_nodes).filter (fun i => g.eligible i)).map
    (fun i => ⟨i, estimate_weighted_spread g [i] mc (rsup1 i), 0⟩)

/-- `celf_weighted_influence`: Phase 1 then Phase 2. -/
def celf_weighted_influence (g : Graph) (k mc : ℕ)
    (rsup1 rsup2 : ℕ → Mt19937) : CelfResult :=
  celfLoop g mc rsup2 k ⟨[], 0, phase1 g mc rsup1, 0, []⟩

/-- The `Selected Seeds:` line of `main`: `for (int s : seeds)` iterates
the `std::set<int>` in ascending order of internal id. -/
def printedSeeds (g : Graph) (res : CelfResult) : List String :=
  (sortAsc res.seedsSel).map (fun s => g.reverse_id_map.getD s "")

/-- The external ids in the order the seeds were selected (the order of
the `Selected Node …` log lines). -/
def selectionOrderIds (g : Graph) (res : CelfResult) : List String :=
  res.seedsSel.map (fun s => g.reverse_id_map.getD s "")

/-- Value of a leading run of decimal digits; `none` when there is no
leading digit (`std::stoi` throws `std::invalid_argument` in that case). -/
def digitsVal (cs : List Char) : Option ℕ :=
  match cs.takeWhile Char.isDigit with
  | [] => none
  | ds => some (ds.foldl (fun a c => 10 * a + (c.toNat - 48)) 0)

/-- Model of `std::stoi`: skip leading whitespace, accept an optional sign,
then require at least one digit; trailing characters are ignored.  `none`
models the thrown `std::invalid_argument`. -/
def stoi (s : String) : Option ℤ :=
  match s.toList.dropWhile Char.isWhitespace with
  | '-' :: rest => (digitsVal rest).map (fun n => -(n : ℤ))
  | '+' :: rest => (digitsVal rest).map (fun n => (n : ℤ))
  | rest => (digitsVal rest).map (fun n => (n : ℤ))

/-- Observable outcome of the process: normal exit with a code (and
whether the usage line was printed to stderr), or abnormal termination via
an uncaught exception (`std::terminate`). -/
inductive ProcOut where
  | exited (code : ℕ) (usage : Bool)
  | uncaught
  deriving Repr, DecidableEq

/-- Model of `main` in `src/src/weighted_max_influence.cc`.  `argv`
includes the program name; `file_readable` abstracts whether
`GEXFParser::parse` can open the input (the only exception it throws).
The `std::stoi` calls on `argv[2]` and `argv[4]` happen *before* the
`try` block, so their exceptions are uncaught. -/
def mainModel (argv : List String) (file_readable : Bool) : ProcOut :=
  if argv.length < 4 ∨ 5 < argv.length then .exited 1 true
  else
    match stoi (argv.getD 2 "") with
    | none => .uncaught
    | some _ =>
      match (if argv.length = 5 then stoi (argv.getD 4 "") else some 0) with
      | none => .uncaught
      | some _ =>
        if file_readable then .exited 0 false else .exited 1 false

/-- Reachability from the seed set along directed edges, regardless of
probabilities: the nodes a cascade could ever activate. -/
inductive Reaches (g : Graph) (seeds : List ℕ) : ℕ → Prop
  | seed {s : ℕ} : s ∈ seeds → Reaches g seeds s
  | step {u v : ℕ} : Reaches g seeds u → v ∈ (g.edges u).map Edge.to → Reaches g seeds v

open Classical in
/-- `Σ value[i]` over all nodes reachable from the seed set. -/
noncomputable def reachSum (g : Graph) (seeds : List ℕ) : ℚ :=
  ∑ v ∈ Finset.range g.num_nodes, if Reaches g seeds v then g.value v else 0

/-- The nodes of the graph marked with the current epoch token. -/
def markedSet (n : ℕ) (last_seen : List ℕ) (token : ℕ) : Finset ℕ :=
  (Finset.range n).filter (fun v => last_seen.getD v 0 = token)

/-- Heap entries the Phase-2 inner loop will not commit: members of the
seed set and stale entries.  Every non-committing inner iteration strictly
decreases this count, which bounds the loop length. -/
def countBad (seeds : List ℕ) (l : List NodeGain) : ℕ :=
  (l.filter (fun e => decide (e.node_id ∈ seeds) || decide (e.iteration_computed ≠ seeds.length))).length

/-- Invariant of the cascade BFS within one rollout under epoch `token`:
the token vector keeps the graph's size, the accumulated total is exactly
the summed value of the token-marked nodes, and both the marked nodes and
the queued nodes are reachable from the seed list. -/
def SimInv (g : Graph) (seed_list : List ℕ) (token : ℕ) (st : SimState) : Prop :=
  st.last_seen.length = g.num_nodes ∧
  st.total = ∑ v ∈ markedSet g.num_nodes st.last_seen token, g.value v ∧
  (∀ v ∈ markedSet g.num_nodes st.last_seen token, Reaches g seed_list v) ∧
  (∀ u ∈ st.q, Reaches g seed_list u)

/-- The RNG whose every draw is exactly 0. -/
def zeroStreamRng : Mt19937 := ⟨fun _ => 0, 0⟩

/-- A family of all-zero-draw RNGs. -/
def zeroSupply : ℕ → Mt19937 := fun _ => zeroStreamRng

/-- Two isolated eligible nodes `a` (value 5) and `b` (value 10): node
`b` (internal id 1) is selected first, then `a` (internal id 0). -/
def twoValueGraph : Graph := (Graph.empty.set_node_value "a" 5).set_node_value "b" 10

/-- Nodes `A` (value 1) and `B` (value 3) with one edge `A → B` of
probability exactly 0. -/
def zeroProbGraph : Graph :=
  ((Graph.empty.set_node_value "A" 1).set_node_value "B" 3).add_edge "A" "B" 0

/-- A single eligible node of value 7 (spec scenario S2: heap exhaustion
when `k` exceeds the number of eligible nodes). -/
def oneEligibleGraph : Graph := Graph.empty.set_node_value "only" 7

/-- The CELF state carried by any inner-loop outcome. -/
def InnerResult.state : InnerResult → CelfState
  | .committed st => st
  | .exhausted st => st
  | .fuelOut st => st

theorem foldlMax_mem (xs : List NodeGain) (x : NodeGain) :
    xs.foldl (fun m y => if NodeGain.lt m y then y else m) x ∈ x :: xs := by
  induction xs generalizing x with
  | nil => simp
  | cons y ys ih =>
    simp only [List.foldl_cons]
    by_cases hxy : NodeGain.lt x y
    · rw [if_pos hxy]
      rcases List.mem_cons.mp (ih y) with h1 | h1
      · rw [h1]; simp
      · simp [h1]
    · rw [if_neg hxy]
      rcases List.mem_cons.mp (ih x) with h1 | h1
      · rw [h1]; simp
      · simp [h1]

theorem pqPop_mem {l rest : List NodeGain} {top : NodeGain}
    (h : pqPop l = some (top, rest)) : top ∈ l ∧ rest = l.erase top := by
  cases l with
  | nil => simp [pqPop, pqTop] at h
  | cons x xs =>
    simp only [pqPop, pqTop, Option.some.injEq, Prod.mk.injEq] at h
    obtain ⟨h1, h2⟩ := h
    subst h1
    exact ⟨foldlMax_mem xs x, h2.symm⟩

theorem countBad_le_length (seeds : List ℕ) (l : List NodeGain) :
    countBad seeds l ≤ l.length :=
  List.length_filter_le _ _

theorem countBad_pop {seeds : List ℕ} {l rest : List NodeGain} {top : NodeGain}
    (hpop : pqPop l = some (top, rest))
    (hbad : (decide (top.node_id ∈ seeds) || decide (top.iteration_computed ≠ seeds.length)) = true) :
    countBad seeds rest + 1 = countBad seeds l := by
  obtain ⟨hm, hr⟩ := pqPop_mem hpop
  subst hr
  have hlen := ((List.perm_cons_erase hm).filter
    (fun e => decide (e.node_id ∈ seeds) || decide (e.iteration_computed ≠ seeds.length))).length_eq
  simp only [countBad, List.filter_cons, hbad, if_pos, List.length_cons] at hlen ⊢
  omega

theorem countBad_cons_good {seeds : List ℕ} {l : List NodeGain} {e : NodeGain}
    (h1 : e.node_id ∉ seeds) (h2 : e.iteration_computed = seeds.length) :
    countBad seeds (e :: l) = countBad seeds l := by
  simp [countBad, List.filter_cons, h1, h2]

theorem innerLoop_total (g : Graph) (mc : ℕ) (rsup : ℕ → Mt19937) :
    ∀ fuel st, countBad st.seedsSel st.pq < fuel →
    (∃ st', innerLoop g mc rsup fuel st = .committed st') ∨
    (∃ st', innerLoop g mc rsup fuel st = .exhausted st') := by
  intro fuel
  induction fuel with
  | zero => intro st h; omega
  | succ n ih =>
    intro st h
    cases hpop : pqPop st.pq with
    | none =>
      right
      exact ⟨st, by simp only [innerLoop, hpop]⟩
    | some pr =>
      obtain ⟨top, rest⟩ := pr
      by_cases h1 : top.node_id ∈ st.seedsSel
      · have hb : (decide (top.node_id ∈ st.seedsSel) ||
            decide (top.iteration_computed ≠ st.seedsSel.length)) = true := by simp [h1]
        have hc := countBad_pop hpop hb
        have hstep : innerLoop g mc rsup (n + 1) st =
            innerLoop g mc rsup n { st with pq := rest } := by
          simp only [innerLoop, hpop, if_pos h1]
        rw [hstep]
        exact ih { st with pq := rest } (by simp only; omega)
      · by_cases h2 : top.iteration_computed = st.seedsSel.length
        · left
          exact ⟨commitState st top rest, by
            simp only [innerLoop, hpop]; rw [if_neg h1, if_pos h2]⟩
        · have hb : (decide (top.node_id ∈ st.seedsSel) ||
              decide (top.iteration_computed ≠ st.seedsSel.length)) = true := by simp [h2]
          have hc := countBad_pop hpop hb
          have hstep : innerLoop g mc rsup (n + 1) st =
              innerLoop g mc rsup n (recomputeState g mc rsup st top rest) := by
            simp only [innerLoop, hpop]; rw [if_neg h1, if_neg h2]
          rw [hstep]
          refine ih (recomputeState g mc rsup st top rest) ?_
          have : countBad st.seedsSel
              (⟨top.node_id, estimate_weighted_spread g (sortAsc st.seedsSel ++ [top.node_id]) mc
                  (rsup st.callIdx) - st.current_val, st.seedsSel.length⟩ :: rest) =
              countBad st.seedsSel rest := countBad_cons_good h1 rfl
          simp only [recomputeState]
          omega

theorem innerLoop_committed_len (g : Graph) (mc : ℕ) (rsup : ℕ → Mt19937) :
    ∀ fuel st st', innerLoop g mc rsup fuel st = .committed st' →
    st'.seedsSel.length = st.seedsSel.length + 1 := by
  intro fuel
  induction fuel with
  | zero => intro st st' h; simp only [innerLoop] at h; cases h
  | succ n ih =>
    intro st st' h
    cases hpop : pqPop st.pq with
    | none => simp only [innerLoop, hpop] at h; cases h
    | some pr =>
      obtain ⟨top, rest⟩ := pr
      by_cases h1 : top.node_id ∈ st.seedsSel
      · rw [show innerLoop g mc rsup (n + 1) st = innerLoop g mc rsup n { st with pq := rest } by
          simp only [innerLoop, hpop, if_pos h1]] at h
        exact ih { st with pq := rest } st' h
      · by_cases h2 : top.iteration_computed = st.seedsSel.length
        · rw [show innerLoop g mc rsup (n + 1) st = .committed (commitState st top rest) by
            simp only [innerLoop, hpop]; rw [if_neg h1, if_pos h2]] at h
          cases h
          simp [commitState]
        · rw [show innerLoop g mc rsup (n + 1) st =
              innerLoop g mc rsup n (recomputeState g mc rsup st top rest) by
            simp only [innerLoop, hpop]; rw [if_neg h1, if_neg h2]] at h
          exact ih (recomputeState g mc rsup st top rest) st' h

theorem innerLoop_exhausted_eq (g : Graph) (mc : ℕ) (rsup : ℕ → Mt19937) :
    ∀ fuel st st', innerLoop g mc rsup fuel st = .exhausted st' →
    st'.seedsSel = st.seedsSel ∧ st'.current_val = st.current_val ∧ st'.log = st.log := by
  intro fuel
  induction fuel with
  | zero => intro st st' h; simp only [innerLoop] at h; cases h
  | succ n ih =>
    intro st st' h
    cases hpop : pqPop st.pq with
    | none =>
      simp only [innerLoop, hpop] at h
      cases h
      exact ⟨rfl, rfl, rfl⟩
    | some pr =>
      obtain ⟨top, rest⟩ := pr
      by_cases h1 : top.node_id ∈ st.seedsSel
      · rw [show innerLoop g mc rsup (n + 1) st = innerLoop g mc rsup n { st with pq := rest } by
          simp only [innerLoop, hpop, if_pos h1]] at h
        exact ih { st with pq := rest } st' h
      · by_cases h2 : top.iteration_computed = st.seedsSel.length
        · rw [show innerLoop g mc rsup (n + 1) st = .committed (commitState st top rest) by
            simp only [innerLoop, hpop]; rw [if_neg h1, if_pos h2]] at h
          cases h
        · rw [show innerLoop g mc rsup (n + 1) st =
              innerLoop g mc rsup n (recomputeState g mc rsup st top rest) by
            simp only [innerLoop, hpop]; rw [if_neg h1, if_neg h2]] at h
          exact ih (recomputeState g mc rsup st top rest) st' h

theorem innerLoop_elig (g : Graph) (mc : ℕ) (rsup : ℕ → Mt19937) :
    ∀ fuel st,
    (∀ s ∈ st.seedsSel, g.eligible s = true) →
    (∀ e ∈ st.pq, g.eligible e.node_id = true) →
    (∀ s ∈ (innerLoop g mc rsup fuel st).state.seedsSel, g.eligible s = true) ∧
    (∀ e ∈ (innerLoop g mc rsup fuel st).state.pq, g.eligible e.node_id = true) := by
  intro fuel
  induction fuel with
  | zero => intro st hs hp; exact ⟨hs, hp⟩
  | succ n ih =>
    intro st hs hp
    cases hpop : pqPop st.pq with
    | none =>
      rw [show innerLoop g mc rsup (n + 1) st = .exhausted st by simp only [innerLoop, hpop]]
      exact ⟨hs, hp⟩
    | some pr =>
      obtain ⟨top, rest⟩ := pr
      obtain ⟨hm, hr⟩ := pqPop_mem hpop
      have hrest : ∀ e ∈ rest, g.eligible e.node_id = true := by
        intro e he
        rw [hr] at he
        exact hp e (List.erase_subset _ _ he)
      by_cases h1 : top.node_id ∈ st.seedsSel
      · rw [show innerLoop g mc rsup (n + 1) st = innerLoop g mc rsup n { st with pq := rest } by
          simp only [innerLoop, hpop, if_pos h1]]
        exact ih _ hs hrest
      · by_cases h2 : top.iteration_computed = st.seedsSel.length
        · rw [show innerLoop g mc rsup (n + 1) st = .committed (commitState st top rest) by
            simp only [innerLoop, hpop]; rw [if_neg h1, if_pos h2]]
          refine ⟨?_, hrest⟩
          intro s hsmem
          rcases List.mem_append.mp hsmem with hmem | hmem
          · exact hs s hmem
          · rcases List.mem_singleton.mp hmem with rfl
            exact hp top hm
        · rw [show innerLoop g mc rsup (n + 1) st =
              innerLoop g mc rsup n (recomputeState g mc rsup st top rest) by
            simp only [innerLoop, hpop]; rw [if_neg h1, if_neg h2]]
          refine ih _ hs ?_
          intro e he
          rcases List.mem_cons.mp he with rfl | hmem
          · exact hp top hm
          · exact hrest e hmem

theorem celfLoop_spec (g : Graph) (mc : ℕ) (rsup : ℕ → Mt19937) :
    ∀ it st,
    ((celfLoop g mc rsup it st).warning = none →
      (celfLoop g mc rsup it st).seedsSel.length = st.seedsSel.length + it) ∧
    (∀ c, (celfLoop g mc rsup it st).warning = some c →
      c = (celfLoop g mc rsup it st).seedsSel.length) := by
  intro it
  induction it with
  | zero =>
    intro st
    exact ⟨fun _ => rfl, fun c hc => by simp only [celfLoop] at hc; cases hc⟩
  | succ n ih =>
    intro st
    have hcb : countBad st.seedsSel st.pq < st.pq.length + 1 :=
      Nat.lt_succ_of_le (countBad_le_length _ _)
    rcases innerLoop_total g mc rsup (st.pq.length + 1) st hcb with ⟨st', hc⟩ | ⟨st', he⟩
    · have hstep : celfLoop g mc rsup (n + 1) st = celfLoop g mc rsup n st' := by
        simp only [celfLoop, hc]
      have hlen := innerLoop_committed_len g mc rsup _ _ _ hc
      rw [hstep]
      refine ⟨fun hw => ?_, (ih st').2⟩
      have := (ih st').1 hw
      omega
    · have hstep : celfLoop g mc rsup (n + 1) st =
          ⟨st'.seedsSel, st'.current_val, st'.log, some st'.seedsSel.length, true⟩ := by
        simp only [celfLoop, he]
      rw [hstep]
      refine ⟨fun hw => Option.noConfusion hw, fun c hc => ?_⟩
      injection hc with hcc
      exact hcc.symm

theorem celfLoop_elig (g : Graph) (mc : ℕ) (rsup : ℕ → Mt19937) :
    ∀ it st,
    (∀ s ∈ st.seedsSel, g.eligible s = true) →
    (∀ e ∈ st.pq, g.eligible e.node_id = true) →
    ∀ s ∈ (celfLoop g mc rsup it st).seedsSel, g.eligible s = true := by
  intro it
  induction it with
  | zero => intro st hs _ s hmem; exact hs s hmem
  | succ n ih =>
    intro st hs hp
    have hcb : countBad st.seedsSel st.pq < st.pq.length + 1 :=
      Nat.lt_succ_of_le (countBad_le_length _ _)
    rcases innerLoop_total g mc rsup (st.pq.length + 1) st hcb with ⟨st', hc⟩ | ⟨st', he⟩
    · have helig := innerLoop_elig g mc rsup (st.pq.length + 1) st hs hp
      rw [hc] at helig
      have hstep : celfLoop g mc rsup (n + 1) st = celfLoop g mc rsup n st' := by
        simp only [celfLoop, hc]
      rw [hstep]
      exact ih st' helig.1 helig.2
    · have helig := innerLoop_elig g mc rsup (st.pq.length + 1) st hs hp
      rw [he] at helig
      have hstep : celfLoop g mc rsup (n + 1) st =
          ⟨st'.seedsSel, st'.current_val, st'.log, some st'.seedsSel.length, true⟩ := by
        simp only [celfLoop, he]
      rw [hstep]
      exact helig.1

/-- C1: in Phase 2, for every popped heap entry `(u, g_u, t_u)`: if `u` is
already in the seed set the entry is discarded and the loop pops again; if
`u` is new and `t_u` equals the current seed-set size the driver commits
(inserts `u`, adds `g_u` to `current_val`, emits a selection log record,
and the iteration ends); otherwise it recomputes the gain as
`estimate(graph, SeedSet ∪ {u}, mc_rounds, rng) − current_val` and pushes
`(u, recomputed gain, |SeedSet|)` back without committing. -/
theorem C1_phase2_pop_behavior (g : Graph) (mc : ℕ) (rsup : ℕ → Mt19937) (fuel : ℕ)
    (st : CelfState) (top : NodeGain) (rest : List NodeGain)
    (hpop : pqPop st.pq = some (top, rest)) :
    (top.node_id ∈ st.seedsSel →
      innerLoop g mc rsup (fuel + 1) st = innerLoop g mc rsup fuel { st with pq := rest }) ∧
    (top.node_id ∉ st.seedsSel → top.iteration_computed = st.seedsSel.length →
      innerLoop g mc rsup (fuel + 1) st = .committed
        { seedsSel := st.seedsSel ++ [top.node_id]
          current_val := st.current_val + top.marginal_gain
          pq := rest
          callIdx := st.callIdx
          log := st.log ++ [⟨top.node_id, top.marginal_gain, st.current_val + top.marginal_gain⟩] }) ∧
    (top.node_id ∉ st.seedsSel → top.iteration_computed ≠ st.seedsSel.length →
      innerLoop g mc rsup (fuel + 1) st = innerLoop g mc rsup fuel
        { seedsSel := st.seedsSel
          current_val := st.current_val
          pq := ⟨top.node_id,
                 estimate_weighted_spread g (sortAsc st.seedsSel ++ [top.node_id]) mc
                     (rsup st.callIdx) - st.current_val,
                 st.seedsSel.length⟩ :: rest
          callIdx := st.callIdx + 1
          log := st.log }) := by
  have hstep : innerLoop g mc rsup (fuel + 1) st =
      if top.node_id ∈ st.seedsSel then
        innerLoop g mc rsup fuel { st with pq := rest }
      else if top.iteration_computed = st.seedsSel.length then
        .committed (commitState st top rest)
      else
        innerLoop g mc rsup fuel (recomputeState g mc rsup st top rest) := by
    simp only [innerLoop, hpop]
  refine ⟨?_, ?_, ?_⟩
  · intro h1
    rw [hstep, if_pos h1]
  · intro h1 h2
    rw [hstep, if_neg h1, if_pos h2]
    rfl
  · intro h1 h2
    rw [hstep, if_neg h1, if_neg h2]
    rfl

/-- C1 witness: a fresh singleton heap entry at an empty seed set is
committed exactly as the claim describes. -/
theorem C1_phase2_pop_behavior_witness :
    pqPop ([⟨0, 5, 0⟩] : List NodeGain) = some (⟨0, 5, 0⟩, []) ∧
    (0 : ℕ) ∉ ([] : List ℕ) ∧
    innerLoop twoValueGraph 1 zeroSupply (0 + 1) ⟨[], 0, [⟨0, 5, 0⟩], 0, []⟩ =
      .committed ⟨[] ++ [0], 0 + 5, [], 0, [] ++ [⟨0, 5, 0 + 5⟩]⟩ := by
  refine ⟨by decide, by decide, ?_⟩
  exact (C1_phase2_pop_behavior twoValueGraph 1 zeroSupply 0 ⟨[], 0, [⟨0, 5, 0⟩], 0, []⟩
    ⟨0, 5, 0⟩ [] (by decide)).2.1 (by decide) (by decide)

/-- C2: every node in the seed set returned by the CELF driver carries the
`has_value` eligibility flag, and Phase 1 pushes only flagged nodes onto
the heap. -/
theorem C2_only_eligible_selected (g : Graph) (k mc : ℕ) (r1 r2 : ℕ → Mt19937) :
    (∀ e ∈ phase1 g mc r1, g.eligible e.node_id = true) ∧
    ∀ s ∈ (celf_weighted_influence g k mc r1 r2).seedsSel, g.eligible s = true := by
  have hph : ∀ e ∈ phase1 g mc r1, g.eligible e.node_id = true := by
    intro e he
    simp only [phase1, List.mem_map, List.mem_filter] at he
    obtain ⟨i, ⟨_, helig⟩, rfl⟩ := he
    exact helig
  exact ⟨hph, celfLoop_elig g mc r2 k ⟨[], 0, phase1 g mc r1, 0, []⟩
    (by intro s h; cases h) hph⟩

/-- C2 witness: in the single-eligible-node run, the selected seed 0 is
eligible. -/
theorem C2_only_eligible_selected_witness :
    (0 ∈ (celf_weighted_influence oneEligibleGraph 2 1 zeroSupply zeroSupply).seedsSel) ∧
    oneEligibleGraph.eligible 0 = true :=
  ⟨by with_unfolding_all decide,
   (C2_only_eligible_selected oneEligibleGraph 2 1 zeroSupply zeroSupply).2 0
     (by with_unfolding_all decide)⟩

/-- C3 counterexample: with two isolated eligible nodes `a` (value 5,
internal id 0) and `b` (value 10, internal id 1) and `k = 2`, node `b` is
selected first, yet the `Selected Seeds:` line prints `a b` — ascending
internal-id order, not selection order. -/
theorem C3_selected_seeds_order_counterexample :
    selectionOrderIds twoValueGraph
        (celf_weighted_influence twoValueGraph 2 1 zeroSupply zeroSupply) = ["b", "a"] ∧
    printedSeeds twoValueGraph
        (celf_weighted_influence twoValueGraph 2 1 zeroSupply zeroSupply) = ["a", "b"] ∧
    printedSeeds twoValueGraph (celf_weighted_influence twoValueGraph 2 1 zeroSupply zeroSupply)
      ≠ selectionOrderIds twoValueGraph
          (celf_weighted_influence twoValueGraph 2 1 zeroSupply zeroSupply) := by
  refine ⟨by with_unfolding_all rfl, by with_unfolding_all rfl, by with_unfolding_all decide⟩

/-- C3 amended: the `Selected Seeds:` line lists the selected seeds in
ascending order of internal node id (the iteration order of the
`std::set<int>` holding the seed set): the printed list is a permutation
of the selection order, sorted ascending. -/
theorem C3_selected_seeds_sorted_by_id (g : Graph) (res : CelfResult) :
    printedSeeds g res = (sortAsc res.seedsSel).map (fun s => g.reverse_id_map.getD s "") ∧
    List.Perm (sortAsc res.seedsSel) res.seedsSel ∧
    List.Sorted (· ≤ ·) (sortAsc res.seedsSel) :=
  ⟨rfl, List.perm_insertionSort _ _, List.sorted_insertionSort _ _⟩

/-- C4: the spread estimator is a deterministic function of (graph, seed
list, mc_rounds, initial RNG state): two runs from equal RNG states return
exactly the same result. -/
theorem C4_estimator_deterministic (g : Graph) (seeds : List ℕ) (mc : ℕ)
    (r₁ r₂ : Mt19937) (hs : r₁.stream = r₂.stream) (hi : r₁.idx = r₂.idx) :
    estimate_weighted_spread g seeds mc r₁ = estimate_weighted_spread g seeds mc r₂ := by
  obtain ⟨s₁, i₁⟩ := r₁
  obtain ⟨s₂, i₂⟩ := r₂
  cases hs
  cases hi
  rfl

/-- C4 witness: two runs of the estimator from the same all-zero RNG state
agree. -/
theorem C4_estimator_deterministic_witness :
    estimate_weighted_spread zeroProbGraph [0] 5 zeroStreamRng =
      estimate_weighted_spread zeroProbGraph [0] 5 ⟨fun _ => 0, 0⟩ :=
  C4_estimator_deterministic zeroProbGraph [0] 5 zeroStreamRng ⟨fun _ => 0, 0⟩ rfl rfl

/-- C5: if the heap empties before `k` seeds are selected, the driver
emits the stderr warning naming the achieved seed count and returns the
truncated seed set; a successful invocation of `main` still exits with
code 0. -/
theorem C5_heap_exhaustion_truncates (g : Graph) (k mc : ℕ) (r1 r2 : ℕ → Mt19937)
    (h : (celf_weighted_influence g k mc r1 r2).seedsSel.length < k) :
    (celf_weighted_influence g k mc r1 r2).warning =
      some (celf_weighted_influence g k mc r1 r2).seedsSel.length ∧
    ∀ argv : List String, 4 ≤ argv.length → argv.length ≤ 5 →
      stoi (argv.getD 2 "") ≠ none → (argv.length = 5 → stoi (argv.getD 4 "") ≠ none) →
      mainModel argv true = ProcOut.exited 0 false := by
  constructor
  · have hunfold : celf_weighted_influence g k mc r1 r2 =
        celfLoop g mc r2 k ⟨[], 0, phase1 g mc r1, 0, []⟩ := rfl
    rw [hunfold] at h ⊢
    have hspec := celfLoop_spec g mc r2 k ⟨[], 0, phase1 g mc r1, 0, []⟩
    cases hw : (celfLoop g mc r2 k ⟨[], 0, phase1 g mc r1, 0, []⟩).warning with
    | none =>
      exfalso
      have hlen := hspec.1 hw
      simp only [List.length_nil] at hlen
      omega
    | some c =>
      have hc := hspec.2 c hw
      rw [hc]
  · intro argv h4 h5 h2 h45
    have hlen : ¬ (argv.length < 4 ∨ 5 < argv.length) := by omega
    simp only [mainModel, if_neg hlen]
    cases hs2 : stoi (argv.getD 2 "") with
    | none => exact absurd hs2 h2
    | some v =>
      by_cases hl : argv.length = 5
      · cases hs4 : stoi (argv.getD 4 "") with
        | none => exact absurd hs4 (h45 hl)
        | some w => simp [hl, hs4]
      · simp [hl]

/-- C5 witness: with one eligible node and `k = 2` the heap empties after
one selection, the warning names the achieved count 1, and a successful
run exits 0. -/
theorem C5_heap_exhaustion_truncates_witness :
    (celf_weighted_influence oneEligibleGraph 2 1 zeroSupply zeroSupply).seedsSel.length < 2 ∧
    (celf_weighted_influence oneEligibleGraph 2 1 zeroSupply zeroSupply).warning =
      some (celf_weighted_influence oneEligibleGraph 2 1 zeroSupply zeroSupply).seedsSel.length ∧
    mainModel ["prog", "graph.gexf", "2", "attr"] true = ProcOut.exited 0 false := by
  have h : (celf_weighted_influence oneEligibleGraph 2 1 zeroSupply
      zeroSupply).seedsSel.length < 2 := by
    with_unfolding_all decide
  exact ⟨h, (C5_heap_exhaustion_truncates oneEligibleGraph 2 1 zeroSupply zeroSupply h).1,
    (C5_heap_exhaustion_truncates oneEligibleGraph 2 1 zeroSupply zeroSupply h).2
      ["prog", "graph.gexf", "2", "attr"] (by decide) (by decide) (by decide) (by decide)⟩

/-- C6: the process exits 0 on success and 1 on wrong arity (with usage)
and on an unreadable file — but an unparseable numeric argument is read by
`std::stoi` before the `try` block, so it terminates the process through
an uncaught exception instead of exiting 1. -/
theorem C6_exit_codes_eval :
    mainModel ["prog", "graph.gexf", "abc", "attr"] true = ProcOut.uncaught ∧
    ProcOut.uncaught ≠ ProcOut.exited 1 true ∧
    ProcOut.uncaught ≠ ProcOut.exited 1 false ∧
    mainModel ["prog"] true = ProcOut.exited 1 true ∧
    mainModel ["prog", "graph.gexf", "3", "attr"] false = ProcOut.exited 1 false ∧
    mainModel ["prog", "graph.gexf", "3", "attr"] true = ProcOut.exited 0 false :=
  ⟨by decide, by decide, by decide, by decide, by decide, by decide⟩

/-- C7: the heap orders entries by larger marginal gain first, and on
equal gains the entry with the smaller node id has higher priority and is
popped first. -/
theorem C7_heap_ordering (a b : NodeGain) :
    (a.marginal_gain < b.marginal_gain → NodeGain.lt a b = true ∧ NodeGain.lt b a = false) ∧
    (a.marginal_gain = b.marginal_gain → a.node_id < b.node_id →
      NodeGain.lt b a = true ∧ NodeGain.lt a b = false ∧
      pqPop [a, b] = some (a, [b]) ∧ pqPop [b, a] = some (a, [b])) := by
  constructor
  · intro h
    unfold NodeGain.lt
    rw [if_neg (ne_of_lt h), if_neg (ne_of_gt h)]
    simp [h, not_lt_of_gt h, le_of_lt h]
  · intro hg hid
    have hab : NodeGain.lt a b = false := by
      unfold NodeGain.lt; rw [if_pos hg]; simp [Nat.lt_asymm hid]
    have hba : NodeGain.lt b a = true := by
      unfold NodeGain.lt; rw [if_pos hg.symm]; simp [hid]
    have hne : b ≠ a := by
      intro hc; rw [hc] at hid; exact Nat.lt_irrefl _ hid
    refine ⟨hba, hab, ?_, ?_⟩
    · simp [pqPop, pqTop, hab, List.erase_cons_head]
    · simp [pqPop, pqTop, hba, List.erase_cons, hne]

/-- C7 witness: concrete entries with distinct and with equal gains order
and pop as the claim states. -/
theorem C7_heap_ordering_witness :
    (NodeGain.lt ⟨0, 5, 0⟩ ⟨1, 10, 0⟩ = true ∧ NodeGain.lt ⟨1, 10, 0⟩ ⟨0, 5, 0⟩ = false) ∧
    (NodeGain.lt ⟨1, 5, 0⟩ ⟨0, 5, 0⟩ = true ∧ NodeGain.lt ⟨0, 5, 0⟩ ⟨1, 5, 0⟩ = false ∧
      pqPop [⟨0, 5, 0⟩, ⟨1, 5, 0⟩] = some (⟨0, 5, 0⟩, [⟨1, 5, 0⟩]) ∧
      pqPop [⟨1, 5, 0⟩, ⟨0, 5, 0⟩] = some (⟨0, 5, 0⟩, [⟨1, 5, 0⟩])) :=
  ⟨(C7_heap_ordering ⟨0, 5, 0⟩ ⟨1, 10, 0⟩).1 (by decide),
   (C7_heap_ordering ⟨0, 5, 0⟩ ⟨1, 5, 0⟩).2 (by decide) (by decide)⟩

/-- C9 counterexample: `add_edge` stores a weight of 2 verbatim, so the
finalized graph holds an edge probability outside `[0, 1]` — no clamping
happens on ingest. -/
theorem C9_probability_clamp_counterexample :
    ((Graph.empty.add_edge "A" "B" 2).edges 0).map Edge.probability = [2] ∧
    ¬ ((2 : ℚ) ≤ 1) :=
  ⟨rfl, by decide⟩

/-- C9 amended: the probability supplied to `add_edge` is stored exactly
as given, for every value — out-of-range weights are not clamped. -/
theorem C9_probability_stored_verbatim (p : ℚ) :
    ((Graph.empty.add_edge "A" "B" p).edges 0).map Edge.probability = [p] := rfl

/-- C10: because activation tests `r ≤ p`, an RNG state whose next draw is
exactly 0 makes a probability-0 edge fire: a rollout from seed `A` over
`A → B` with probability 0 activates `B` (marks it with the epoch token)
and adds `value[B] = 3` to the returned total. -/
theorem C10_zero_probability_edge_activates :
    ∃ rng : Mt19937, rng.next.1 = 0 ∧
      zeroProbGraph.value 1 = 3 ∧
      (run_weighted_simulation_token zeroProbGraph [0] rng (List.replicate 2 0) 2).total
        = zeroProbGraph.value 0 + zeroProbGraph.value 1 ∧
      (run_weighted_simulation_token zeroProbGraph [0] rng
        (List.replicate 2 0) 2).last_seen.getD 1 0 = 2 :=
  ⟨zeroStreamRng, rfl, rfl, by with_unfolding_all rfl, by with_unfolding_all rfl⟩

theorem markedSet_set_insert {n : ℕ} {ls : List ℕ} (token v : ℕ)
    (hv : v < n) (hlen : ls.length = n) :
    markedSet n (ls.set v token) token = insert v (markedSet n ls token) := by
  ext w
  simp only [markedSet, Finset.mem_insert, Finset.mem_filter, Finset.mem_range,
    decide_eq_true_eq]
  by_cases hw : w = v
  · subst hw
    have hgd : (ls.set w token)[w]? = some token := by
      rw [List.getElem?_set_self]
      simp [hlen ▸ hv]
    simp [hgd, hv]
  · have hgd : (ls.set v token)[w]? = ls[w]? := List.getElem?_set_ne (by omega)
    simp [hgd, hw]

theorem not_mem_markedSet_of_fresh {n : ℕ} {ls : List ℕ} {token v : ℕ}
    (h : ls.getD v 0 ≠ token) : v ∉ markedSet n ls token := by
  rw [List.getD_eq_getElem?_getD] at h
  simp [markedSet, h]

theorem value_nonneg {g : Graph} (hnn : ∀ x ∈ g.node_values, 0 ≤ x) (v : ℕ) :
    0 ≤ g.value v := by
  unfold Graph.value
  by_cases h : v < g.node_values.length
  · rw [List.getD_eq_getElem?_getD, List.getElem?_eq_getElem h]
    exact hnn _ (List.getElem_mem h)
  · rw [List.getD_eq_default _ _ (by omega)]

theorem value_eq_zero_of_ge {g : Graph} (hvals : g.node_values.length = g.num_nodes)
    {v : ℕ} (h : g.num_nodes ≤ v) : g.value v = 0 := by
  unfold Graph.value
  exact List.getD_eq_default _ _ (by omega)

theorem edges_to_lt {g : Graph} (hwf : ∀ l ∈ g.adj, ∀ e ∈ l, e.to < g.num_nodes)
    {u : ℕ} {e : Edge} (he : e ∈ g.edges u) : e.to < g.num_nodes := by
  unfold Graph.edges at he
  by_cases hu : u < g.adj.length
  · have hgd : g.adj.getD u [] = g.adj[u] := by
      rw [List.getD_eq_getElem?_getD, List.getElem?_eq_getElem hu]
      rfl
    rw [hgd] at he
    exact hwf _ (List.getElem_mem hu) e he
  · rw [List.getD_eq_default _ _ (by omega)] at he
    cases he

theorem seedStep_inv {g : Graph} {seed_list : List ℕ} {token : ℕ}
    (hvals : g.node_values.length = g.num_nodes)
    {st : SimState} {s : ℕ} (hs : s ∈ seed_list)
    (hInv : SimInv g seed_list token st) :
    SimInv g seed_list token (seedStep g token st s) := by
  obtain ⟨hlen, htot, hmark, hq⟩ := hInv
  unfold seedStep
  by_cases hfresh : st.last_seen.getD s 0 ≠ token
  · rw [if_pos hfresh]
    by_cases hsn : s < g.num_nodes
    · have hins := markedSet_set_insert token s hsn hlen
      have hnotmem : s ∉ markedSet g.num_nodes st.last_seen token :=
        not_mem_markedSet_of_fresh hfresh
      refine ⟨by simp [hlen], ?_, ?_, ?_⟩
      · simp only [hins]
        rw [Finset.sum_insert hnotmem, htot]
        ring
      · intro v hv
        simp only [hins] at hv
        rcases Finset.mem_insert.mp hv with rfl | hv
        · exact Reaches.seed hs
        · exact hmark v hv
      · intro u hu
        rcases List.mem_append.mp hu with hu | hu
        · exact hq u hu
        · rcases List.mem_singleton.mp hu with rfl
          exact Reaches.seed hs
    · have hset : st.last_seen.set s token = st.last_seen :=
        List.set_eq_of_length_le (by omega)
      have hval : g.value s = 0 := value_eq_zero_of_ge hvals (by omega)
      refine ⟨by simp [hset, hlen], by simp [hset, hval, htot], ?_, ?_⟩
      · simpa [hset] using hmark
      · intro u hu
        rcases List.mem_append.mp hu with hu | hu
        · exact hq u hu
        · rcases List.mem_singleton.mp hu with rfl
          exact Reaches.seed hs
  · rw [if_neg hfresh]
    exact ⟨hlen, htot, hmark, hq⟩

theorem procEdge_inv {g : Graph} {seed_list : List ℕ} {token : ℕ}
    (hwf : ∀ l ∈ g.adj, ∀ e ∈ l, e.to < g.num_nodes)
    {st : SimState} {u : ℕ} {e : Edge}
    (hu : Reaches g seed_list u) (he : e ∈ g.edges u)
    (hInv : SimInv g seed_list token st) :
    SimInv g seed_list token (procEdge g token st e) := by
  obtain ⟨hlen, htot, hmark, hq⟩ := hInv
  have hto : e.to < g.num_nodes := edges_to_lt hwf he
  have hreach : Reaches g seed_list e.to :=
    Reaches.step hu (List.mem_map_of_mem Edge.to he)
  unfold procEdge
  by_cases hfresh : st.last_seen.getD e.to 0 ≠ token
  · rw [if_pos hfresh]
    simp only [Mt19937.next]
    by_cases hr : st.rng.stream st.rng.idx ≤ e.probability
    · rw [if_pos hr]
      have hins := markedSet_set_insert token e.to hto hlen
      have hnotmem : e.to ∉ markedSet g.num_nodes st.last_seen token :=
        not_mem_markedSet_of_fresh hfresh
      refine ⟨by simp [hlen], ?_, ?_, ?_⟩
      · simp only [hins]
        rw [Finset.sum_insert hnotmem, htot]
        ring
      · intro v hv
        simp only [hins] at hv
        rcases Finset.mem_insert.mp hv with rfl | hv
        · exact hreach
        · exact hmark v hv
      · intro w hw
        rcases List.mem_append.mp hw with hw | hw
        · exact hq w hw
        · rcases List.mem_singleton.mp hw with rfl
          exact hreach
    · rw [if_neg hr]
      exact ⟨hlen, htot, hmark, hq⟩
  · rw [if_neg hfresh]
    exact ⟨hlen, htot, hmark, hq⟩

theorem foldl_seedStep_inv {g : Graph} {seed_list : List ℕ} {token : ℕ}
    (hvals : g.node_values.length = g.num_nodes) :
    ∀ (sl : List ℕ) (st : SimState), (∀ s ∈ sl, s ∈ seed_list) →
    SimInv g seed_list token st →
    SimInv g seed_list token (sl.foldl (seedStep g token) st) := by
  intro sl
  induction sl with
  | nil => intro st _ h; exact h
  | cons s rest ih =>
    intro st hsub h
    simp only [List.foldl_cons]
    exact ih _ (fun x hx => hsub x (List.mem_cons_of_mem _ hx))
      (seedStep_inv hvals (hsub s (List.mem_cons_self _ _)) h)

theorem foldl_procEdge_inv {g : Graph} {seed_list : List ℕ} {token : ℕ}
    (hwf : ∀ l ∈ g.adj, ∀ e ∈ l, e.to < g.num_nodes) {u : ℕ}
    (hu : Reaches g seed_list u) :
    ∀ (es : List Edge) (st : SimState), (∀ e ∈ es, e ∈ g.edges u) →
    SimInv g seed_list token st →
    SimInv g seed_list token (es.foldl (procEdge g token) st) := by
  intro es
  induction es with
  | nil => intro st _ h; exact h
  | cons e rest ih =>
    intro st hsub h
    simp only [List.foldl_cons]
    exact ih _ (fun x hx => hsub x (List.mem_cons_of_mem _ hx))
      (procEdge_inv hwf hu (hsub e (List.mem_cons_self _ _)) h)

theorem simLoop_inv {g : Graph} {seed_list : List ℕ} {token : ℕ}
    (hwf : ∀ l ∈ g.adj, ∀ e ∈ l, e.to < g.num_nodes) :
    ∀ (fuel : ℕ) (st : SimState), SimInv g seed_list token st →
    SimInv g seed_list token (simLoop g token fuel st) := by
  intro fuel
  induction fuel with
  | zero => intro st h; exact h
  | succ n ih =>
    intro st h
    cases hq : st.q with
    | nil =>
      rw [show simLoop g token (n + 1) st = st by simp only [simLoop, hq]]
      exact h
    | cons u qrest =>
      rw [show simLoop g token (n + 1) st =
          simLoop g token n ((g.edges u).foldl (procEdge g token) { st with q := qrest }) by
        simp only [simLoop, hq]]
      have hu : Reaches g seed_list u := h.2.2.2 u (by rw [hq]; exact List.mem_cons_self _ _)
      have hst' : SimInv g seed_list token { st with q := qrest } := by
        obtain ⟨h1, h2, h3, h4⟩ := h
        exact ⟨h1, h2, h3, fun w hw => h4 w (by rw [hq]; exact List.mem_cons_of_mem _ hw)⟩
      exact ih _ (foldl_procEdge_inv hwf hu (g.edges u) _ (fun e he => he) hst')

theorem rollout_inv {g : Graph} (seed_list : List ℕ)
    (hvals : g.node_values.length = g.num_nodes)
    (hwf : ∀ l ∈ g.adj, ∀ e ∈ l, e.to < g.num_nodes)
    (rng : Mt19937) (ls : List ℕ) (token : ℕ)
    (hlen : ls.length = g.num_nodes)
    (hfresh : ∀ v, ls.getD v 0 ≠ token) :
    SimInv g seed_list token (run_weighted_simulation_token g seed_list rng ls token) := by
  unfold run_weighted_simulation_token
  apply simLoop_inv hwf
  apply foldl_seedStep_inv hvals seed_list _ (fun s hs => hs)
  refine ⟨hlen, ?_, ?_, ?_⟩
  · have hempty : markedSet g.num_nodes ls token = ∅ := by
      ext w
      have := hfresh w
      rw [List.getD_eq_getElem?_getD] at this
      simp [markedSet, this]
    simp [hempty]
  · intro v hv
    exact absurd hv (not_mem_markedSet_of_fresh (hfresh v))
  · intro u hu
    cases hu

theorem SimInv_bounds {g : Graph} {seed_list : List ℕ} {token : ℕ} {st : SimState}
    (hnn : ∀ x ∈ g.node_values, 0 ≤ x)
    (hInv : SimInv g seed_list token st) :
    0 ≤ st.total ∧ st.total ≤ reachSum g seed_list := by
  classical
  obtain ⟨hlen, htot, hmark, hq⟩ := hInv
  constructor
  · rw [htot]
    exact Finset.sum_nonneg fun v _ => value_nonneg hnn v
  · rw [htot]
    have h1 : ∑ v ∈ markedSet g.num_nodes st.last_seen token, g.value v =
        ∑ v ∈ markedSet g.num_nodes st.last_seen token,
          (if Reaches g seed_list v then g.value v else 0) :=
      Finset.sum_congr rfl (fun v hv => by rw [if_pos (hmark v hv)])
    have hsub : markedSet g.num_nodes st.last_seen token ⊆ Finset.range g.num_nodes :=
      Finset.filter_subset _ _
    have h2 : ∑ v ∈ markedSet g.num_nodes st.last_seen token,
          (if Reaches g seed_list v then g.value v else 0) ≤
        ∑ v ∈ Finset.range g.num_nodes, (if Reaches g seed_list v then g.value v else 0) := by
      refine Finset.sum_le_sum_of_subset_of_nonneg hsub (fun v _ _ => ?_)
      split
      · exact value_nonneg hnn v
      · exact le_refl 0
    rw [h1]
    refine le_trans h2 ?_
    unfold reachSum
    exact le_of_eq (Finset.sum_congr rfl (fun v _ => rfl))

theorem seedStep_entries {g : Graph} {token : ℕ} {st : SimState} {s : ℕ}
    (h : ∀ x ∈ st.last_seen, x ≤ token) :
    (∀ x ∈ (seedStep g token st s).last_seen, x ≤ token) ∧
    (seedStep g token st s).last_seen.length = st.last_seen.length := by
  unfold seedStep
  by_cases hfresh : st.last_seen.getD s 0 ≠ token
  · rw [if_pos hfresh]
    refine ⟨?_, by simp⟩
    intro x hx
    rcases List.mem_or_eq_of_mem_set hx with hx | rfl
    · exact h x hx
    · exact le_refl _
  · rw [if_neg hfresh]
    exact ⟨h, rfl⟩

theorem procEdge_entries {g : Graph} {token : ℕ} {st : SimState} {e : Edge}
    (h : ∀ x ∈ st.last_seen, x ≤ token) :
    (∀ x ∈ (procEdge g token st e).last_seen, x ≤ token) ∧
    (procEdge g token st e).last_seen.length = st.last_seen.length := by
  unfold procEdge
  by_cases hfresh : st.last_seen.getD e.to 0 ≠ token
  · rw [if_pos hfresh]
    simp only [Mt19937.next]
    by_cases hr : st.rng.stream st.rng.idx ≤ e.probability
    · rw [if_pos hr]
      refine ⟨?_, by simp⟩
      intro x hx
      rcases List.mem_or_eq_of_mem_set hx with hx | rfl
      · exact h x hx
      · exact le_refl _
    · rw [if_neg hr]
      exact ⟨h, rfl⟩
  · rw [if_neg hfresh]
    exact ⟨h, rfl⟩

theorem foldl_seedStep_entries {g : Graph} {token : ℕ} :
    ∀ (sl : List ℕ) (st : SimState), (∀ x ∈ st.last_seen, x ≤ token) →
    (∀ x ∈ (sl.foldl (seedStep g token) st).last_seen, x ≤ token) ∧
    (sl.foldl (seedStep g token) st).last_seen.length = st.last_seen.length := by
  intro sl
  induction sl with
  | nil => intro st h; exact ⟨h, rfl⟩
  | cons s rest ih =>
    intro st h
    simp only [List.foldl_cons]
    obtain ⟨h1, h2⟩ := seedStep_entries (s := s) h
    obtain ⟨h3, h4⟩ := ih _ h1
    exact ⟨h3, h4.trans h2⟩

theorem foldl_procEdge_entries {g : Graph} {token : ℕ} :
    ∀ (es : List Edge) (st : SimState), (∀ x ∈ st.last_seen, x ≤ token) →
    (∀ x ∈ (es.foldl (procEdge g token) st).last_seen, x ≤ token) ∧
    (es.foldl (procEdge g token) st).last_seen.length = st.last_seen.length := by
  intro es
  induction es with
  | nil => intro st h; exact ⟨h, rfl⟩
  | cons e rest ih =>
    intro st h
    simp only [List.foldl_cons]
    obtain ⟨h1, h2⟩ := procEdge_entries (e := e) h
    obtain ⟨h3, h4⟩ := ih _ h1
    exact ⟨h3, h4.trans h2⟩

theorem simLoop_entries {g : Graph} {token : ℕ} :
    ∀ (fuel : ℕ) (st : SimState), (∀ x ∈ st.last_seen, x ≤ token) →
    (∀ x ∈ (simLoop g token fuel st).last_seen, x ≤ token) ∧
    (simLoop g token fuel st).last_seen.length = st.last_seen.length := by
  intro fuel
  induction fuel with
  | zero => intro st h; exact ⟨h, rfl⟩
  | succ n ih =>
    intro st h
    cases hq : st.q with
    | nil =>
      rw [show simLoop g token (n + 1) st = st by simp only [simLoop, hq]]
      exact ⟨h, rfl⟩
    | cons u qrest =>
      rw [show simLoop g token (n + 1) st =
          simLoop g token n ((g.edges u).foldl (procEdge g token) { st with q := qrest }) by
        simp only [simLoop, hq]]
      obtain ⟨h1, h2⟩ := foldl_procEdge_entries (g.edges u) { st with q := qrest } h
      obtain ⟨h3, h4⟩ := ih _ h1
      exact ⟨h3, h4.trans h2⟩

theorem rollout_entries (g : Graph) (seed_list : List ℕ) {token : ℕ}
    (rng : Mt19937) (ls : List ℕ)
    (h : ∀ x ∈ ls, x ≤ token) :
    (∀ x ∈ (run_weighted_simulation_token g seed_list rng ls token).last_seen, x ≤ token) ∧
    (run_weighted_simulation_token g seed_list rng ls token).last_seen.length = ls.length := by
  unfold run_weighted_simulation_token
  obtain ⟨h1, h2⟩ := foldl_seedStep_entries seed_list ⟨[], ls, 0, rng⟩ h
  obtain ⟨h3, h4⟩ := simLoop_entries (seed_list.length + g.num_nodes) _ h1
  exact ⟨h3, h4.trans h2⟩

theorem estimateRounds_succ (g : Graph) (sl : List ℕ) (i token : ℕ) (ls : List ℕ)
    (rng : Mt19937) (acc : ℚ) :
    estimateRounds g sl (i + 1) token ls rng acc =
      estimateRounds g sl i
        (if (token + 1) % 4294967296 = 0 then 1 else (token + 1) % 4294967296)
        (run_weighted_simulation_token g sl rng
          (if (token + 1) % 4294967296 = 0 then List.replicate ls.length 0 else ls)
          (if (token + 1) % 4294967296 = 0 then 1 else (token + 1) % 4294967296)).last_seen
        (run_weighted_simulation_token g sl rng
          (if (token + 1) % 4294967296 = 0 then List.replicate ls.length 0 else ls)
          (if (token + 1) % 4294967296 = 0 then 1 else (token + 1) % 4294967296)).rng
        (acc + (run_weighted_simulation_token g sl rng
          (if (token + 1) % 4294967296 = 0 then List.replicate ls.length 0 else ls)
          (if (token + 1) % 4294967296 = 0 then 1 else (token + 1) % 4294967296)).total) := rfl

theorem estimateRounds_bounds {g : Graph} (seed_list : List ℕ)
    (hnn : ∀ x ∈ g.node_values, 0 ≤ x)
    (hvals : g.node_values.length = g.num_nodes)
    (hwf : ∀ l ∈ g.adj, ∀ e ∈ l, e.to < g.num_nodes) :
    ∀ (rounds token : ℕ) (ls : List ℕ) (rng : Mt19937) (acc : ℚ),
    ls.length = g.num_nodes → (∀ x ∈ ls, x ≤ token) →
    1 ≤ token → token < 4294967296 →
    acc ≤ (estimateRounds g seed_list rounds token ls rng acc).1 ∧
    (estimateRounds g seed_list rounds token ls rng acc).1 ≤
      acc + rounds * reachSum g seed_list := by
  intro rounds
  induction rounds with
  | zero =>
    intro token ls rng acc _ _ _ _
    simp [estimateRounds]
  | succ i ih =>
    intro token ls rng acc hlen htok h1 h2
    rw [estimateRounds_succ]
    by_cases hwrap : (token + 1) % 4294967296 = 0
    · rw [if_pos hwrap, if_pos hwrap]
      have hlen' : (List.replicate ls.length (0 : ℕ)).length = g.num_nodes := by
        rw [List.length_replicate]; exact hlen
      have hfresh : ∀ v, (List.replicate ls.length (0 : ℕ)).getD v 0 ≠ 1 := by
        intro v
        rw [List.getD_eq_getElem?_getD, List.getElem?_replicate]
        split <;> simp
      have hb := SimInv_bounds hnn
        (rollout_inv seed_list hvals hwf rng _ 1 hlen' hfresh)
      have htok0 : ∀ x ∈ List.replicate ls.length (0 : ℕ), x ≤ 1 := by
        intro x hx
        rw [List.eq_of_mem_replicate hx]
        omega
      obtain ⟨he1, he2⟩ := rollout_entries g seed_list rng (List.replicate ls.length 0) htok0
      have hih := ih 1 _ (run_weighted_simulation_token g seed_list rng
          (List.replicate ls.length 0) 1).rng
        (acc + (run_weighted_simulation_token g seed_list rng
          (List.replicate ls.length 0) 1).total)
        (he2.trans hlen') he1 (le_refl 1) (by norm_num)
      obtain ⟨hl, hr⟩ := hih
      constructor
      · have : acc ≤ acc + (run_weighted_simulation_token g seed_list rng
            (List.replicate ls.length 0) 1).total := by linarith [hb.1]
        linarith
      · have hcast : ((i + 1 : ℕ) : ℚ) = (i : ℚ) + 1 := by push_cast; ring
        rw [hcast]
        have htot := hb.2
        nlinarith [hr, htot]
    · rw [if_neg hwrap, if_neg hwrap]
      have hmod : (token + 1) % 4294967296 = token + 1 := Nat.mod_eq_of_lt (by omega)
      rw [hmod]
      have hfresh : ∀ v, ls.getD v 0 ≠ token + 1 := by
        intro v
        by_cases hvl : v < ls.length
        · have hmem : ls.getD v 0 ∈ ls := by
            rw [List.getD_eq_getElem?_getD, List.getElem?_eq_getElem hvl]
            exact List.getElem_mem hvl
          have := htok _ hmem
          omega
        · rw [List.getD_eq_default _ _ (by omega)]
          omega
      have hb := SimInv_bounds hnn
        (rollout_inv seed_list hvals hwf rng ls (token + 1) hlen hfresh)
      have htok' : ∀ x ∈ ls, x ≤ token + 1 := fun x hx => le_trans (htok x hx) (by omega)
      obtain ⟨he1, he2⟩ := rollout_entries g seed_list rng ls htok'
      have hih := ih (token + 1) _ (run_weighted_simulation_token g seed_list rng
          ls (token + 1)).rng
        (acc + (run_weighted_simulation_token g seed_list rng ls (token + 1)).total)
        (he2.trans hlen) he1 (by omega) (by omega)
      obtain ⟨hl, hr⟩ := hih
      constructor
      · have : acc ≤ acc + (run_weighted_simulation_token g seed_list rng
            ls (token + 1)).total := by linarith [hb.1]
        linarith
      · have hcast : ((i + 1 : ℕ) : ℚ) = (i : ℚ) + 1 := by push_cast; ring
        rw [hcast]
        nlinarith [hr, hb.2]

/-- C8: for every graph with nonnegative node values (and well-formed
adjacency), every seed list and every RNG state, a single rollout total
lies in `[0, Σ value[i] over nodes reachable from the seed set]`, and the
estimator mean over `mc_rounds ≥ 1` rollouts lies in the same range. -/
theorem C8_ic_bounds (g : Graph) (seed_list : List ℕ) (mc : ℕ) (rng : Mt19937)
    (hnn : ∀ x ∈ g.node_values, 0 ≤ x)
    (hvals : g.node_values.length = g.num_nodes)
    (hwf : ∀ l ∈ g.adj, ∀ e ∈ l, e.to < g.num_nodes)
    (hmc : 1 ≤ mc) :
    (∀ (last_seen : List ℕ) (token : ℕ),
      last_seen.length = g.num_nodes → (∀ v, last_seen.getD v 0 ≠ token) →
      0 ≤ (run_weighted_simulation_token g seed_list rng last_seen token).total ∧
      (run_weighted_simulation_token g seed_list rng last_seen token).total ≤
        reachSum g seed_list) ∧
    0 ≤ estimate_weighted_spread g seed_list mc rng ∧
    estimate_weighted_spread g seed_list mc rng ≤ reachSum g seed_list := by
  constructor
  · intro ls token hlen hfresh
    exact SimInv_bounds hnn
      (rollout_inv seed_list hvals hwf rng ls token hlen hfresh)
  · have hrep_len : (List.replicate g.num_nodes (0 : ℕ)).length = g.num_nodes :=
      List.length_replicate _ _
    have htok0 : ∀ x ∈ List.replicate g.num_nodes (0 : ℕ), x ≤ 1 := by
      intro x hx
      rw [List.eq_of_mem_replicate hx]
      omega
    have hb := estimateRounds_bounds seed_list hnn hvals hwf mc 1
      (List.replicate g.num_nodes 0) rng 0 hrep_len htok0 (le_refl 1) (by norm_num)
    unfold estimate_weighted_spread
    have hmcq : (0 : ℚ) < mc := by
      have : (1 : ℚ) ≤ mc := by exact_mod_cast hmc
      linarith
    constructor
    · apply div_nonneg
      · linarith [hb.1]
      · exact le_of_lt hmcq
    · rw [div_le_iff₀ hmcq]
      have h2 := hb.2
      have hcomm : (mc : ℚ) * reachSum g seed_list = reachSum g seed_list * mc := mul_comm _ _
      linarith

/-- C8 witness: the bounds instantiated on the two-node zero-probability
graph with seed `A` and 5 Monte Carlo rounds. -/
theorem C8_ic_bounds_witness :
    (∀ x ∈ zeroProbGraph.node_values, 0 ≤ x) ∧
    (1 : ℕ) ≤ 5 ∧
    (0 ≤ (run_weighted_simulation_token zeroProbGraph [0] zeroStreamRng
        (List.replicate 2 0) 2).total ∧
      (run_weighted_simulation_token zeroProbGraph [0] zeroStreamRng
        (List.replicate 2 0) 2).total ≤ reachSum zeroProbGraph [0]) ∧
    (0 ≤ estimate_weighted_spread zeroProbGraph [0] 5 zeroStreamRng ∧
      estimate_weighted_spread zeroProbGraph [0] 5 zeroStreamRng ≤ reachSum zeroProbGraph [0]) := by
  refine ⟨by decide, by decide, ?_, ?_⟩
  · exact (C8_ic_bounds zeroProbGraph [0] 5 zeroStreamRng (by decide) (by decide) (by decide)
      (by decide)).1 (List.replicate 2 0) 2 (by decide)
      (fun v => by
        rw [List.getD_eq_getElem?_getD, List.getElem?_replicate]
        split <;> simp)
  · exact (C8_ic_bounds zeroProbGraph [0] 5 zeroStreamRng (by decide) (by decide) (by decide)
      (by decide)).2
